import Mathlib

/-!
Verification development for the movie-EDA script `netflix.py`.

The script is a linear pandas pipeline over an in-memory table:
load → inspect → clean (year extraction, column drop) → categorize the
`Vote_Average` column by its own quartiles (`catigorize_col`, using
`pd.cut`) → drop rows with missing values (`df.dropna`) → split the
`Genre` string on ", " and explode one row per tag → report
(max/min-popularity queries and charts).

The embedding below models the table as a list of records over exact
rationals (for the two float columns), with `Option` for missing values
(pandas `NaN`).  The pandas primitives the script calls are embedded
from their documented semantics:

* `Series.describe()` on a numeric column yields min / 25% / 50% / 75% /
  max, the three percentiles computed by linear interpolation over the
  sorted non-missing values (`percentile` below); on a categorical
  column `describe()` has no `'min'` entry, so indexing it fails.
* `pd.cut(x, bins, labels, include_lowest=True)` with the default
  `right=True` forms right-closed intervals `(b_i, b_{i+1}]`, the lowest
  interval additionally left-closed; a value outside every interval maps
  to missing.  Assignment is by left-`searchsorted` index, with the
  `include_lowest` override for values equal to the first edge
  (`cutIndex` below); `labels` must be one fewer than the edges and, for
  an ordered categorical, duplicate-free, otherwise `pd.cut` raises.
* `Series.str.split(", ")` splits each string value on the exact
  two-character separator (`splitTags` below); a non-string value maps
  to missing.
* `DataFrame.explode` replaces a list-valued cell by one row per
  element (an empty list yields a single row with a missing value, a
  non-list cell passes through unchanged).
* `DataFrame.dropna` keeps exactly the rows with no missing value.
* `Series.max()` / `Series.min()` ignore missing values.

Fallible operations return `Option`: `none` is the script raising and
the run halting.
-/

set_option maxRecDepth 16000

/-- Insertion of an element into a ≤-sorted list; `List.orderedInsert`
specialised to `ℚ`, used by `percentile` through `List.insertionSort`. -/
def sortQ (l : List ℚ) : List ℚ := l.insertionSort (· ≤ ·)

/-- Python's `sorted(set(l))` (source line 124): the distinct elements of
`l` in increasing order. -/
def sortedDedup (l : List ℚ) : List ℚ := (l.dedup).insertionSort (· ≤ ·)

/-- Linear-interpolation percentile of an already-sorted non-empty list
`s`, as computed by `numpy`/`pandas.Series.quantile(q)` (the default
`interpolation='linear'`): with `h = (n-1)·q`, interpolate between the
values at positions `⌊h⌋` and `⌊h⌋+1`. -/
def percentile (s : List ℚ) (q : ℚ) : ℚ :=
  let n := s.length
  let h : ℚ := ((n : ℚ) - 1) * q
  let lo : Nat := (⌊h⌋).toNat
  let a := s.getD lo 0
  let b := s.getD (min (lo + 1) (n - 1)) 0
  a + (h - (lo : ℚ)) * (b - a)

/-- The five boundary values `[min, 25%, 50%, 75%, max]` read off
`df[col].describe()` (source lines 118–122).  `describe` skips missing
values; on an empty (or all-missing) column the boundaries are
undefined and the script cannot proceed, modelled as `none`. -/
def describe5 (vals : List (Option ℚ)) : Option (List ℚ) :=
  let xs := vals.filterMap id
  match xs with
  | [] => none
  | _ :: _ =>
    let s := sortQ xs
    some [s.getD 0 0, percentile s (1/4), percentile s (1/2),
          percentile s (3/4), s.getD (s.length - 1) 0]

/-- The bin index chosen by `pd.cut(..., right=True, include_lowest=True)`
for a single value `x` over distinct sorted `edges`: left-`searchsorted`
position (the number of edges strictly below `x`), overridden to `1`
when `x` equals the first edge, and `none` (missing) when the position
falls outside `1 .. edges.length - 1`. -/
def cutIndex (edges : List ℚ) (x : ℚ) : Option Nat :=
  let i : Nat := if edges.head? = some x then 1
                 else edges.countP (fun b => decide (b < x))
  if i = 0 ∨ i = edges.length then none else some i

/-- The label `pd.cut` assigns to a single value `x`: the `(i-1)`-th
label when `cutIndex` is `some i`, missing otherwise. -/
def cutAssign (edges : List ℚ) (labs : List String) (x : ℚ) : Option String :=
  (cutIndex edges x).bind (fun i => labs.get? (i - 1))

/-- The numeric core of `catigorize_col` (source lines 118–126): compute
the five quartile boundaries, deduplicate and sort them, trim the label
list to `labels[:len(edges)-1]`, and run `pd.cut` value-wise.  `pd.cut`
raises (here `none`) when the trimmed label list is not one shorter than
the edge list or contains duplicates (ordered categorical labels must be
unique). -/
def catigorizeCore (vals : List (Option ℚ)) (labels : List String) :
    Option (List (Option String)) :=
  match describe5 vals with
  | none => none
  | some e5 =>
    let edges := sortedDedup e5
    let labs := labels.take (edges.length - 1)
    if labs.length = edges.length - 1 ∧ labs.Nodup then
      some (vals.map (fun ov => ov.bind (cutAssign edges labs)))
    else none

/-- A pandas column as the script sees it: numeric (`float64`) before
categorization, categorical after `pd.cut`.  Missing entries are
`none`. -/
inductive Column where
  | numeric (vals : List (Option ℚ))
  | categorical (vals : List (Option String))
deriving DecidableEq

/-- `catigorize_col` (source lines 108–127) on the column it processes.
On a numeric column it bins by the deduplicated quartile boundaries and
returns the categorical result.  On a column that is already
categorical, `df[col].describe()` has no `'min'` entry (it reports
count/unique/top/freq), so line 118 raises `KeyError`: `none`. -/
def catigorize_col (c : Column) (labels : List String) : Option Column :=
  match c with
  | .categorical _ => none
  | .numeric vals => (catigorizeCore vals labels).map Column.categorical

/-- The label list of source line 129. -/
def labels4 : List String := ["not_popular", "below_avg", "average", "popular"]

/-- The value of the `Vote_Average` cell of one row: numeric before
categorization, a label afterwards, or missing. -/
inductive VoteVal where
  | vnum (q : ℚ)
  | vcat (s : String)
  | vmissing
deriving DecidableEq

/-- The value of the `Genre` cell of one row: the raw comma-space joined
string as loaded, the list of tags after `str.split(', ')`, or
missing. -/
inductive GenreVal where
  | gstr (s : String)
  | glist (ts : List String)
  | gmissing
deriving DecidableEq

/-- One record of the cleaned table (source line 104 state): the six
retained columns `Release_Date` (already reduced to a year), `Title`,
`Popularity`, `Vote_Count`, `Vote_Average`, `Genre`. -/
structure DynRow where
  release_Date : Option Int
  title : Option String
  popularity : Option ℚ
  vote_Count : Option Int
  vote_Average : VoteVal
  genre : GenreVal
deriving DecidableEq

/-- Splitting a character list on the two-character separator `", "`,
leftmost-first, as Python's `str.split(', ')` does. -/
def splitSepCS : List Char → List (List Char)
  | [] => [[]]
  | ',' :: ' ' :: rest => [] :: splitSepCS rest
  | c :: rest =>
    match splitSepCS rest with
    | [] => [[c]]
    | g :: gs => (c :: g) :: gs

/-- `s.split(', ')` of source line 142 on one string. -/
def splitTags (s : String) : List String :=
  (splitSepCS s.toList).map (fun cs => String.mk cs)

/-- `true` iff the row has no missing value in any column — the rows
`df.dropna` keeps. -/
def rowComplete (r : DynRow) : Bool :=
  r.release_Date.isSome && r.title.isSome && r.popularity.isSome &&
  r.vote_Count.isSome && (r.vote_Average ≠ VoteVal.vmissing : Bool) &&
  (r.genre ≠ GenreVal.gmissing : Bool)

/-- `true` iff the `Vote_Average` cell is not a label, so that the
column as a whole still has a numeric dtype. -/
def isNumVote (r : DynRow) : Bool :=
  match r.vote_Average with
  | .vcat _ => false
  | _ => true

/-- The numeric content of one `Vote_Average` cell. -/
def extractVote (r : DynRow) : Option ℚ :=
  match r.vote_Average with
  | .vnum q => some q
  | _ => none

/-- The `Vote_Average` column as `catigorize_col` reads it (numeric
entries, missing otherwise). -/
def voteColVals (df : List DynRow) : List (Option ℚ) :=
  df.map extractVote

/-- Writing one `pd.cut` result back into its row: a produced label, or
missing where `pd.cut` yielded `NaN`. -/
def writeVote (r : DynRow) (l : Option String) : DynRow :=
  { r with vote_Average := match l with | some s => .vcat s | none => .vmissing }

/-- Source line 130, `df = catigorize_col(df, 'Vote_Average', labels)`:
categorize the `Vote_Average` column in place.  If the column already
has a non-numeric dtype, `describe()['min']` raises (`none`). -/
def categorizeVoteStep (df : List DynRow) : Option (List DynRow) :=
  if df.all isNumVote then
    (catigorizeCore (voteColVals df) labels4).map
      (fun outs => List.zipWith writeVote df outs)
  else none

/-- Source line 137, `df.dropna(inplace=True)`: keep exactly the rows
with no missing value. -/
def dropnaStep (df : List DynRow) : List DynRow := df.filter rowComplete

/-- Source line 142, `df['Genre'] = df['Genre'].str.split(', ')` on one
row: a string cell becomes its tag list; the `.str` accessor turns any
non-string cell into missing. -/
def splitGenreRow (r : DynRow) : DynRow :=
  { r with genre := match r.genre with
                    | .gstr s => .glist (splitTags s)
                    | _ => .gmissing }

/-- Source line 143, `df.explode('Genre')` on one row: a list cell
becomes one row per element (an empty list one row with a missing
cell); a non-list cell passes through unchanged. -/
def explodeRow (r : DynRow) : List DynRow :=
  match r.genre with
  | .glist [] => [{ r with genre := .gmissing }]
  | .glist ts => ts.map (fun t => { r with genre := .gstr t })
  | _ => [r]

/-- `df.explode('Genre')` over the whole frame, preserving row order. -/
def explodeStep : List DynRow → List DynRow
  | [] => []
  | r :: rs => explodeRow r ++ explodeStep rs

/-- The four transformations the script applies to the cleaned frame,
as named steps. -/
inductive ScriptStep where
  | categorizeVote
  | dropna
  | splitGenre
  | explodeGenre
deriving DecidableEq

/-- The effect of each step on the frame.  Only `categorizeVote` can
fail. -/
def applyStep : ScriptStep → List DynRow → Option (List DynRow)
  | .categorizeVote, df => categorizeVoteStep df
  | .dropna, df => some (dropnaStep df)
  | .splitGenre, df => some (df.map splitGenreRow)
  | .explodeGenre, df => some (explodeStep df)

/-- Run a list of steps left to right, halting on failure. -/
def runSteps : List ScriptStep → List DynRow → Option (List DynRow)
  | [], df => some df
  | s :: ss, df => (applyStep s df).bind (runSteps ss)

/-- The script's order of operations on the cleaned frame: source line
130 (categorize), line 137 (dropna), line 142 (split), line 143
(explode). -/
def scriptSteps : List ScriptStep :=
  [.categorizeVote, .dropna, .splitGenre, .explodeGenre]

/-- The transformation pipeline from the cleaned frame to the frame the
reporter queries. -/
def pipeline (df : List DynRow) : Option (List DynRow) :=
  runSteps scriptSteps df

/-- `df['Popularity'].max()` (source line 184): maximum over the
non-missing entries, or missing for an empty column. -/
def listMaxQ : List ℚ → Option ℚ
  | [] => none
  | x :: xs =>
    match listMaxQ xs with
    | none => some x
    | some m => some (max x m)

/-- `df['Popularity'].min()` (source line 187). -/
def listMinQ : List ℚ → Option ℚ
  | [] => none
  | x :: xs =>
    match listMinQ xs with
    | none => some x
    | some m => some (min x m)

/-- The dataset-wide maximum popularity. -/
def popularityMax (df : List DynRow) : Option ℚ :=
  listMaxQ (df.filterMap (fun r => r.popularity))

/-- The dataset-wide minimum popularity. -/
def popularityMin (df : List DynRow) : Option ℚ :=
  listMinQ (df.filterMap (fun r => r.popularity))

/-- The elementwise comparison `df['Popularity'] == v`: pandas equality
with a missing operand is `False`. -/
def popEq : Option ℚ → Option ℚ → Bool
  | some a, some b => decide (a = b)
  | _, _ => false

/-- Source line 184, `df[df['Popularity'] == df['Popularity'].max()]`. -/
def highestPopQuery (df : List DynRow) : List DynRow :=
  df.filter (fun r => popEq r.popularity (popularityMax df))

/-- Source line 187, `df[df['Popularity'] == df['Popularity'].min()]`. -/
def lowestPopQuery (df : List DynRow) : List DynRow :=
  df.filter (fun r => popEq r.popularity (popularityMin df))

/-- The sorted non-missing values of a column, as `describe` sees
them. -/
def colSorted (vals : List (Option ℚ)) : List ℚ := sortQ (vals.filterMap id)

/-- The deduplicated sorted quartile boundaries of a column — the
`edges` of `catigorize_col` after line 124. -/
def edgesOf (vals : List (Option ℚ)) : List ℚ :=
  sortedDedup ((describe5 vals).getD [])

/-- The trimmed label list `labels[:len(edges)-1]` used on line 126. -/
def labsOf (vals : List (Option ℚ)) : List String :=
  labels4.take ((edgesOf vals).length - 1)

/-- `true` iff the column holds at least two distinct non-missing
scores. -/
def hasTwoDistinctScores (vals : List (Option ℚ)) : Bool :=
  2 ≤ (vals.filterMap id).dedup.length

/-- `true` iff the `Genre` cell holds a string, as every cell of a
freshly loaded genre column does. -/
def isStrGenre (r : DynRow) : Bool :=
  match r.genre with
  | .gstr _ => true
  | _ => false

/-- `true` iff the `Genre` cell is a string or missing — the only cell
states a loaded CSV column can be in. -/
def genreLoaded (r : DynRow) : Bool :=
  match r.genre with
  | .glist _ => false
  | _ => true

/-- The genre tags of a row whose `Genre` cell is still the loaded
string. -/
def tagsOfRow (r : DynRow) : List String :=
  match r.genre with
  | .gstr s => splitTags s
  | _ => []

/-- A copy of `r` carrying a single genre tag. -/
def setGenre (r : DynRow) (t : String) : DynRow :=
  { r with genre := .gstr t }

/-- The specification's description of the explode transform: each
record with `n` tags becomes `n` records, identical in every other
column, one per tag, in tag order, records kept in their original
relative order. -/
def explodeSpec : List DynRow → List DynRow
  | [] => []
  | r :: rs => (tagsOfRow r).map (setGenre r) ++ explodeSpec rs

/-! ### Lemmas about sorting and deduplication -/

theorem sortQ_perm (l : List ℚ) : (sortQ l).Perm l := List.perm_insertionSort _ _

theorem mem_sortQ {x : ℚ} {l : List ℚ} : x ∈ sortQ l ↔ x ∈ l :=
  (sortQ_perm l).mem_iff

theorem sortQ_sorted (l : List ℚ) : (sortQ l).Sorted (· ≤ ·) :=
  List.sorted_insertionSort _ _

theorem length_sortQ (l : List ℚ) : (sortQ l).length = l.length :=
  (sortQ_perm l).length_eq

theorem sortedDedup_perm (l : List ℚ) : (sortedDedup l).Perm l.dedup :=
  List.perm_insertionSort _ _

theorem mem_sortedDedup {x : ℚ} {l : List ℚ} : x ∈ sortedDedup l ↔ x ∈ l :=
  (sortedDedup_perm l).mem_iff.trans List.mem_dedup

theorem sortedDedup_sorted_le (l : List ℚ) : (sortedDedup l).Sorted (· ≤ ·) :=
  List.sorted_insertionSort _ _

theorem sortedDedup_nodup (l : List ℚ) : (sortedDedup l).Nodup :=
  ((sortedDedup_perm l).nodup_iff).mpr (List.nodup_dedup l)

theorem sortedDedup_sorted_lt (l : List ℚ) : (sortedDedup l).Sorted (· < ·) :=
  ((sortedDedup_sorted_le l).and (sortedDedup_nodup l)).imp
    (fun h => lt_of_le_of_ne h.1 h.2)

theorem sortedDedup_length_le (l : List ℚ) : (sortedDedup l).length ≤ l.length :=
  (sortedDedup_perm l).length_eq ▸ (List.dedup_sublist l).length_le

theorem sortedDedup_length_lt {l : List ℚ} (h : ¬ l.Nodup) :
    (sortedDedup l).length < l.length := by
  rw [(sortedDedup_perm l).length_eq]
  rcases Nat.lt_or_ge l.dedup.length l.length with hlt | hge
  · exact hlt
  · exfalso
    have hle := (List.dedup_sublist l).length_le
    have heq : l.dedup = l :=
      (List.dedup_sublist l).eq_of_length (Nat.le_antisymm hle hge)
    exact h (heq ▸ List.nodup_dedup l)

/-! ### Bounds in a sorted list -/

theorem sorted_getD_zero_le {s : List ℚ} (hs : s.Sorted (· ≤ ·)) {x : ℚ}
    (hx : x ∈ s) : s.getD 0 0 ≤ x := by
  obtain ⟨⟨i, hi⟩, rfl⟩ := List.mem_iff_get.1 hx
  have h0 : 0 < s.length := Nat.lt_of_le_of_lt (Nat.zero_le i) hi
  have : s.getD 0 0 = s.get ⟨0, h0⟩ := by
    rw [List.getD_eq_get?, List.get?_eq_get h0]
    rfl
  rw [this]
  exact hs.rel_get_of_le (by exact Fin.mk_le_mk.mpr (Nat.zero_le i))

theorem le_sorted_getD_last {s : List ℚ} (hs : s.Sorted (· ≤ ·)) {x : ℚ}
    (hx : x ∈ s) : x ≤ s.getD (s.length - 1) 0 := by
  obtain ⟨⟨i, hi⟩, rfl⟩ := List.mem_iff_get.1 hx
  have h0 : s.length - 1 < s.length :=
    Nat.sub_lt (Nat.lt_of_le_of_lt (Nat.zero_le i) hi) Nat.one_pos
  have : s.getD (s.length - 1) 0 = s.get ⟨s.length - 1, h0⟩ := by
    rw [List.getD_eq_get?, List.get?_eq_get h0]
    rfl
  rw [this]
  exact hs.rel_get_of_le (by exact Fin.mk_le_mk.mpr (Nat.le_sub_one_of_lt hi))

theorem getD_eq_get {s : List ℚ} {i : Nat} (h : i < s.length) :
    s.getD i 0 = s.get ⟨i, h⟩ := by
  rw [List.getD_eq_get?, List.get?_eq_get h]
  rfl

theorem percentile_def (s : List ℚ) (q : ℚ) :
    percentile s q =
      s.getD ((⌊((s.length : ℚ) - 1) * q⌋).toNat) 0 +
      (((s.length : ℚ) - 1) * q - ((⌊((s.length : ℚ) - 1) * q⌋).toNat : ℚ)) *
        (s.getD (min ((⌊((s.length : ℚ) - 1) * q⌋).toNat + 1) (s.length - 1)) 0 -
         s.getD ((⌊((s.length : ℚ) - 1) * q⌋).toNat) 0) := rfl

theorem percentile_bounds {s : List ℚ} (hs : s.Sorted (· ≤ ·)) (hne : s ≠ [])
    {q : ℚ} (hq0 : 0 ≤ q) (hq1 : q ≤ 1) :
    s.getD 0 0 ≤ percentile s q ∧ percentile s q ≤ s.getD (s.length - 1) 0 := by
  have hn : 0 < s.length := List.length_pos.mpr hne
  have hn1 : (0 : ℚ) ≤ (s.length : ℚ) - 1 := by
    have h1 : (1 : ℚ) ≤ (s.length : ℚ) := by exact_mod_cast hn
    linarith
  have hpos : 0 ≤ ((s.length : ℚ) - 1) * q := mul_nonneg hn1 hq0
  have hub : ((s.length : ℚ) - 1) * q ≤ (s.length : ℚ) - 1 := by
    calc ((s.length : ℚ) - 1) * q ≤ ((s.length : ℚ) - 1) * 1 :=
          mul_le_mul_of_nonneg_left hq1 hn1
    _ = (s.length : ℚ) - 1 := mul_one _
  have hfl0 : 0 ≤ ⌊((s.length : ℚ) - 1) * q⌋ := Int.floor_nonneg.mpr hpos
  have hflub : ⌊((s.length : ℚ) - 1) * q⌋ ≤ (s.length : ℤ) - 1 := by
    have hstep : ⌊((s.length : ℚ) - 1) * q⌋ ≤ ⌊((s.length : ℚ) - 1)⌋ :=
      Int.floor_le_floor hub
    have hcast : ⌊((s.length : ℚ) - 1)⌋ = (s.length : ℤ) - 1 := by
      have h1 : ((s.length : ℚ) - 1) = (((s.length : ℤ) - 1 : ℤ) : ℚ) := by
        push_cast
        ring
      rw [h1, Int.floor_intCast]
    omega
  have hlocast : ((((⌊((s.length : ℚ) - 1) * q⌋).toNat : ℕ)) : ℚ) =
      ((⌊((s.length : ℚ) - 1) * q⌋ : ℤ) : ℚ) := by
    exact_mod_cast congrArg (fun z : ℤ => (z : ℚ)) (Int.toNat_of_nonneg hfl0)
  have hlon : (⌊((s.length : ℚ) - 1) * q⌋).toNat ≤ s.length - 1 := by omega
  have hlolt : (⌊((s.length : ℚ) - 1) * q⌋).toNat < s.length := by omega
  have hidx2 : min ((⌊((s.length : ℚ) - 1) * q⌋).toNat + 1) (s.length - 1) <
      s.length := by omega
  have hle2 : (⌊((s.length : ℚ) - 1) * q⌋).toNat ≤
      min ((⌊((s.length : ℚ) - 1) * q⌋).toNat + 1) (s.length - 1) := by omega
  have hab : s.getD ((⌊((s.length : ℚ) - 1) * q⌋).toNat) 0 ≤
      s.getD (min ((⌊((s.length : ℚ) - 1) * q⌋).toNat + 1) (s.length - 1)) 0 := by
    rw [getD_eq_get hlolt, getD_eq_get hidx2]
    exact hs.rel_get_of_le (Fin.mk_le_mk.mpr hle2)
  have hfrac0 : 0 ≤ ((s.length : ℚ) - 1) * q -
      (((⌊((s.length : ℚ) - 1) * q⌋).toNat : ℕ) : ℚ) := by
    rw [hlocast]
    have := Int.floor_le (((s.length : ℚ) - 1) * q)
    linarith
  have hfrac1 : ((s.length : ℚ) - 1) * q -
      (((⌊((s.length : ℚ) - 1) * q⌋).toNat : ℕ) : ℚ) ≤ 1 := by
    rw [hlocast]
    have := Int.lt_floor_add_one (((s.length : ℚ) - 1) * q)
    linarith
  have hmema : s.getD ((⌊((s.length : ℚ) - 1) * q⌋).toNat) 0 ∈ s := by
    rw [getD_eq_get hlolt]
    exact List.get_mem s _ _
  have hmemb : s.getD (min ((⌊((s.length : ℚ) - 1) * q⌋).toNat + 1)
      (s.length - 1)) 0 ∈ s := by
    rw [getD_eq_get hidx2]
    exact List.get_mem s _ _
  rw [percentile_def]
  constructor
  · have h1 : s.getD 0 0 ≤ s.getD ((⌊((s.length : ℚ) - 1) * q⌋).toNat) 0 :=
      sorted_getD_zero_le hs hmema
    nlinarith [mul_nonneg hfrac0 (sub_nonneg.mpr hab)]
  · have h2 : s.getD (min ((⌊((s.length : ℚ) - 1) * q⌋).toNat + 1)
        (s.length - 1)) 0 ≤ s.getD (s.length - 1) 0 :=
      le_sorted_getD_last hs hmemb
    nlinarith [mul_le_of_le_one_left (sub_nonneg.mpr hab) hfrac1]

theorem describe5_eq {vals : List (Option ℚ)} (h : vals.filterMap id ≠ []) :
    describe5 vals = some [(colSorted vals).getD 0 0,
      percentile (colSorted vals) (1/4), percentile (colSorted vals) (1/2),
      percentile (colSorted vals) (3/4),
      (colSorted vals).getD ((colSorted vals).length - 1) 0] := by
  unfold describe5 colSorted
  cases hxs : vals.filterMap id with
  | nil => exact absurd hxs h
  | cons a as => simp [hxs]

theorem describe5_ne_nil {vals : List (Option ℚ)} {e5 : List ℚ}
    (hd : describe5 vals = some e5) : vals.filterMap id ≠ [] := by
  intro hnil
  rw [describe5] at hd
  rw [hnil] at hd
  exact Option.noConfusion hd

theorem colSorted_sorted (vals : List (Option ℚ)) :
    (colSorted vals).Sorted (· ≤ ·) := sortQ_sorted _

theorem mem_colSorted {x : ℚ} {vals : List (Option ℚ)} :
    x ∈ colSorted vals ↔ x ∈ vals.filterMap id := mem_sortQ

theorem describe5_list {vals : List (Option ℚ)} {e5 : List ℚ}
    (hd : describe5 vals = some e5) :
    e5 = [(colSorted vals).getD 0 0,
      percentile (colSorted vals) (1/4), percentile (colSorted vals) (1/2),
      percentile (colSorted vals) (3/4),
      (colSorted vals).getD ((colSorted vals).length - 1) 0] := by
  have h := describe5_eq (describe5_ne_nil hd)
  rw [hd] at h
  exact Option.some.inj h

/-- Every quartile boundary lies between the column minimum and the
column maximum. -/
theorem describe5_bounds {vals : List (Option ℚ)} {e5 : List ℚ}
    (hd : describe5 vals = some e5) :
    ∀ e ∈ e5, (colSorted vals).getD 0 0 ≤ e ∧
      e ≤ (colSorted vals).getD ((colSorted vals).length - 1) 0 := by
  have hne : vals.filterMap id ≠ [] := describe5_ne_nil hd
  have hsne : colSorted vals ≠ [] := by
    intro hn
    apply hne
    have := (sortQ_perm (vals.filterMap id)).length_eq
    rw [show sortQ (vals.filterMap id) = colSorted vals from rfl, hn] at this
    exact List.length_eq_zero.mp this.symm
  have hmn : (colSorted vals).getD 0 0 ∈ colSorted vals := by
    have h0 : 0 < (colSorted vals).length := List.length_pos.mpr hsne
    rw [getD_eq_get h0]
    exact List.get_mem _ _ _
  have hmx : (colSorted vals).getD ((colSorted vals).length - 1) 0 ∈
      colSorted vals := by
    have h0 : (colSorted vals).length - 1 < (colSorted vals).length :=
      Nat.sub_lt (List.length_pos.mpr hsne) Nat.one_pos
    rw [getD_eq_get h0]
    exact List.get_mem _ _ _
  have hs := colSorted_sorted vals
  have hq14 := percentile_bounds hs hsne (by norm_num : (0:ℚ) ≤ 1/4) (by norm_num)
  have hq12 := percentile_bounds hs hsne (by norm_num : (0:ℚ) ≤ 1/2) (by norm_num)
  have hq34 := percentile_bounds hs hsne (by norm_num : (0:ℚ) ≤ 3/4) (by norm_num)
  rw [describe5_list hd]
  intro e he
  simp only [List.mem_cons, List.not_mem_nil, or_false] at he
  rcases he with rfl | rfl | rfl | rfl | rfl
  · exact ⟨le_refl _, le_sorted_getD_last hs hmn⟩
  · exact hq14
  · exact hq12
  · exact hq34
  · exact ⟨sorted_getD_zero_le hs hmx, le_refl _⟩

theorem edgesOf_eq {vals : List (Option ℚ)} {e5 : List ℚ}
    (hd : describe5 vals = some e5) : edgesOf vals = sortedDedup e5 := by
  unfold edgesOf
  rw [hd]
  rfl

theorem mem_edgesOf {vals : List (Option ℚ)} {e5 : List ℚ} {x : ℚ}
    (hd : describe5 vals = some e5) : x ∈ edgesOf vals ↔ x ∈ e5 := by
  rw [edgesOf_eq hd]
  exact mem_sortedDedup

/-! ### Lemmas about the `pd.cut` assignment -/

theorem cutIndex_some_elim {edges : List ℚ} {x : ℚ} {i : Nat}
    (h : cutIndex edges x = some i) :
    (edges.head? = some x ∧ i = 1) ∨
    (edges.head? ≠ some x ∧ i = edges.countP (fun b => decide (b < x))) := by
  simp only [cutIndex] at h
  by_cases hh : edges.head? = some x
  · rw [if_pos hh] at h
    left
    refine ⟨hh, ?_⟩
    by_cases hg : (1 = 0 ∨ 1 = edges.length)
    · rw [if_pos hg] at h
      exact Option.noConfusion h
    · rw [if_neg hg] at h
      exact (Option.some.inj h).symm
  · rw [if_neg hh] at h
    right
    refine ⟨hh, ?_⟩
    by_cases hg : (edges.countP (fun b => decide (b < x)) = 0 ∨
        edges.countP (fun b => decide (b < x)) = edges.length)
    · rw [if_pos hg] at h
      exact Option.noConfusion h
    · rw [if_neg hg] at h
      exact (Option.some.inj h).symm

theorem cutIndex_guard {edges : List ℚ} {x : ℚ} {i : Nat}
    (h : cutIndex edges x = some i) : i ≠ 0 ∧ i ≠ edges.length := by
  simp only [cutIndex] at h
  by_cases hh : edges.head? = some x
  · rw [if_pos hh] at h
    revert h
    split
    · intro h
      exact Option.noConfusion h
    · intro h
      obtain rfl := Option.some.inj h
      rename_i hg
      push_neg at hg
      exact hg
  · rw [if_neg hh] at h
    revert h
    split
    · intro h
      exact Option.noConfusion h
    · intro h
      obtain rfl := Option.some.inj h
      rename_i hg
      push_neg at hg
      exact hg

theorem cutIndex_bounds {edges : List ℚ} {x : ℚ} {i : Nat}
    (h : cutIndex edges x = some i) : 1 ≤ i ∧ i ≤ edges.length - 1 := by
  obtain ⟨h0, hl⟩ := cutIndex_guard h
  rcases cutIndex_some_elim h with ⟨hh, rfl⟩ | ⟨hh, rfl⟩
  · have hne : edges ≠ [] := by
      intro hnil
      rw [hnil] at hh
      exact Option.noConfusion hh
    have := List.length_pos.mpr hne
    omega
  · have hle := List.countP_le_length (p := fun b => decide (b < x)) (l := edges)
    omega

theorem sorted_head?_le {l : List ℚ} (hs : l.Sorted (· ≤ ·)) {b x : ℚ}
    (hh : l.head? = some b) (hx : x ∈ l) : b ≤ x := by
  cases l with
  | nil => exact Option.noConfusion hh
  | cons a as =>
    obtain rfl : a = b := Option.some.inj hh
    rcases List.mem_cons.mp hx with rfl | hxs
    · exact le_refl _
    · exact (List.pairwise_cons.mp hs).1 x hxs

theorem cutIndex_head {edges : List ℚ} {x : ℚ} (hh : edges.head? = some x)
    (hlen : 2 ≤ edges.length) : cutIndex edges x = some 1 := by
  simp only [cutIndex]
  rw [if_pos hh, if_neg]
  push_neg
  exact ⟨one_ne_zero, by omega⟩

theorem cutIndex_not_head {edges : List ℚ} {x : ℚ} (hh : ¬ edges.head? = some x)
    (h0 : edges.countP (fun b => decide (b < x)) ≠ 0)
    (hl : edges.countP (fun b => decide (b < x)) ≠ edges.length) :
    cutIndex edges x = some (edges.countP (fun b => decide (b < x))) := by
  simp only [cutIndex]
  rw [if_neg hh, if_neg]
  push_neg
  exact ⟨h0, hl⟩

/-- Totality of the bin assignment: a value between the least edge and
some edge gets a bin index. -/
theorem cutIndex_total {edges : List ℚ} {x b : ℚ}
    (hs : edges.Sorted (· ≤ ·)) (hlen : 2 ≤ edges.length)
    (hh : edges.head? = some b) (hbx : b ≤ x) (hhigh : ∃ e ∈ edges, x ≤ e) :
    ∃ i, cutIndex edges x = some i ∧ 1 ≤ i ∧ i ≤ edges.length - 1 := by
  by_cases hx : edges.head? = some x
  · exact ⟨1, cutIndex_head hx hlen, le_refl 1, by omega⟩
  · have hbmem : b ∈ edges := by
      cases edges with
      | nil => exact Option.noConfusion hh
      | cons a as => exact (Option.some.inj hh) ▸ List.mem_cons_self a as
    have hbx' : b < x := by
      rcases lt_or_eq_of_le hbx with h | h
      · exact h
      · exact absurd (h ▸ hh) hx
    have h0 : edges.countP (fun b' => decide (b' < x)) ≠ 0 := by
      intro hz
      have := List.countP_eq_zero.mp hz b hbmem
      simp at this
      exact absurd hbx' (not_lt.mpr this)
    have hl : edges.countP (fun b' => decide (b' < x)) ≠ edges.length := by
      intro he
      obtain ⟨e, hem, hxe⟩ := hhigh
      have := List.countP_eq_length.mp he e hem
      simp at this
      exact absurd hxe (not_le.mpr this)
    refine ⟨_, cutIndex_not_head hx h0 hl, ?_, ?_⟩
    · have := Nat.pos_of_ne_zero h0
      omega
    · have hle := List.countP_le_length (p := fun b' => decide (b' < x)) (l := edges)
      omega

/-- Monotonicity of the bin assignment in the value. -/
theorem cutIndex_mono {edges : List ℚ} (hs : edges.Sorted (· ≤ ·))
    {x y : ℚ} {ix iy : Nat} (hx : cutIndex edges x = some ix)
    (hy : cutIndex edges y = some iy) (hxy : x ≤ y) : ix ≤ iy := by
  have hy1 : 1 ≤ iy := (cutIndex_bounds hy).1
  rcases cutIndex_some_elim hx with ⟨hhx, rfl⟩ | ⟨hhx, rfl⟩
  · omega
  · rcases cutIndex_some_elim hy with ⟨hhy, rfl⟩ | ⟨hhy, rfl⟩
    · -- y equals the least edge, so nothing is strictly below x ≤ y
      exfalso
      have h0 := (cutIndex_guard hx).1
      apply h0
      apply List.countP_eq_zero.mpr
      intro e he
      simp only [decide_eq_true_eq]
      have hy_le : y ≤ e := sorted_head?_le hs hhy he
      push_neg
      exact le_trans hxy hy_le
    · exact List.countP_mono_left (fun e _ hlt => by
        simp only [decide_eq_true_eq] at hlt ⊢
        exact lt_of_lt_of_le hlt hxy)

/-- In a strictly sorted list, the number of elements strictly below a
value `v` with `edges[j] < v ≤ edges[j+1]` is exactly `j + 1`. -/
theorem countP_lt_of_between {edges : List ℚ} (hs : edges.Sorted (· < ·))
    {j : Nat} (hj : j + 1 < edges.length) {v : ℚ}
    (h1 : edges.getD j 0 < v) (h2 : v ≤ edges.getD (j + 1) 0) :
    edges.countP (fun b => decide (b < v)) = j + 1 := by
  have hsle : edges.Sorted (· ≤ ·) := hs.le_of_lt
  have hjlt : j < edges.length := by omega
  have htlen : (edges.take (j + 1)).length = j + 1 := by
    rw [List.length_take]
    omega
  have htake_sorted : (edges.take (j + 1)).Sorted (· ≤ ·) :=
    List.Pairwise.sublist (List.take_sublist _ _) hsle
  have hdrop_sorted : (edges.drop (j + 1)).Sorted (· ≤ ·) :=
    List.Pairwise.sublist (List.drop_sublist _ _) hsle
  have hlast_take : (edges.take (j + 1)).getD j 0 = edges.getD j 0 := by
    have h1' : j < (edges.take (j + 1)).length := by omega
    rw [getD_eq_get h1', getD_eq_get hjlt]
    simp [List.get_eq_getElem, List.getElem_take]
  have hhead_drop : (edges.drop (j + 1)).getD 0 0 = edges.getD (j + 1) 0 := by
    have hl : 0 < (edges.drop (j + 1)).length := by
      rw [List.length_drop]
      omega
    rw [getD_eq_get hl, getD_eq_get hj]
    simp [List.get_eq_getElem, List.getElem_drop]
  have hcount : edges.countP (fun b => decide (b < v)) =
      (edges.take (j + 1)).countP (fun b => decide (b < v)) +
      (edges.drop (j + 1)).countP (fun b => decide (b < v)) := by
    conv_lhs => rw [← List.take_append_drop (j + 1) edges]
    rw [List.countP_append]
  have htake_all : (edges.take (j + 1)).countP (fun b => decide (b < v)) = j + 1 := by
    have hall : ∀ a ∈ edges.take (j + 1), (fun b => decide (b < v)) a = true := by
      intro a ha
      simp only [decide_eq_true_eq]
      have hle : a ≤ (edges.take (j + 1)).getD ((edges.take (j + 1)).length - 1) 0 :=
        le_sorted_getD_last htake_sorted ha
      rw [htlen, Nat.add_sub_cancel, hlast_take] at hle
      exact lt_of_le_of_lt hle h1
    calc (edges.take (j + 1)).countP (fun b => decide (b < v)) =
        (edges.take (j + 1)).length := List.countP_eq_length.mpr hall
    _ = j + 1 := htlen
  have hdrop_none : (edges.drop (j + 1)).countP (fun b => decide (b < v)) = 0 := by
    apply List.countP_eq_zero.mpr
    intro a ha
    simp only [decide_eq_true_eq]
    push_neg
    calc v ≤ edges.getD (j + 1) 0 := h2
    _ = (edges.drop (j + 1)).getD 0 0 := hhead_drop.symm
    _ ≤ a := sorted_getD_zero_le hdrop_sorted ha
  omega

/-! ### Structure of the edge list -/

theorem edges_sorted_le (vals : List (Option ℚ)) :
    (edgesOf vals).Sorted (· ≤ ·) := sortedDedup_sorted_le _

theorem edges_sorted_lt (vals : List (Option ℚ)) :
    (edgesOf vals).Sorted (· < ·) := sortedDedup_sorted_lt _

/-- The least deduplicated edge is exactly the column minimum. -/
theorem edges_head_eq_min {vals : List (Option ℚ)} {e5 : List ℚ}
    (hd : describe5 vals = some e5) :
    (edgesOf vals).head? = some ((colSorted vals).getD 0 0) := by
  have hmn_mem : (colSorted vals).getD 0 0 ∈ edgesOf vals := by
    rw [mem_edgesOf hd, describe5_list hd]
    exact List.mem_cons_self _ _
  cases hE : edgesOf vals with
  | nil =>
    rw [hE] at hmn_mem
    cases hmn_mem
  | cons b rest =>
    have hb_mem : b ∈ edgesOf vals := by
      rw [hE]
      exact List.mem_cons_self _ _
    have hb_ge : (colSorted vals).getD 0 0 ≤ b :=
      ((describe5_bounds hd) b ((mem_edgesOf hd).mp hb_mem)).1
    have hb_le : b ≤ (colSorted vals).getD 0 0 := by
      have hsorted := edges_sorted_le vals
      rw [hE] at hsorted
      exact sorted_head?_le hsorted rfl (hE ▸ hmn_mem)
    simp [le_antisymm hb_le hb_ge]

theorem two_distinct_exists {vals : List (Option ℚ)}
    (h2 : hasTwoDistinctScores vals = true) :
    ∃ a ∈ vals.filterMap id, ∃ b ∈ vals.filterMap id, a ≠ b := by
  simp only [hasTwoDistinctScores, decide_eq_true_eq] at h2
  match hdl : (vals.filterMap id).dedup with
  | [] =>
    rw [hdl] at h2
    simp at h2
  | [a] =>
    rw [hdl] at h2
    simp at h2
  | a :: b :: rest =>
    have hnd : ((vals.filterMap id).dedup).Nodup := List.nodup_dedup _
    rw [hdl] at hnd
    have hab : a ≠ b := by
      intro he
      exact (List.nodup_cons.mp hnd).1 (he ▸ List.mem_cons_self b rest)
    have ha : a ∈ vals.filterMap id :=
      List.mem_dedup.mp (hdl ▸ List.mem_cons_self _ _)
    have hb : b ∈ vals.filterMap id :=
      List.mem_dedup.mp (hdl ▸ List.mem_cons_of_mem a (List.mem_cons_self b rest))
    exact ⟨a, ha, b, hb, hab⟩

/-- With two distinct scores the column minimum is strictly below the
column maximum. -/
theorem min_lt_max_of_two {vals : List (Option ℚ)}
    (h2 : hasTwoDistinctScores vals = true) :
    (colSorted vals).getD 0 0 <
      (colSorted vals).getD ((colSorted vals).length - 1) 0 := by
  obtain ⟨a, ha, b, hb, hab⟩ := two_distinct_exists h2
  have ha' : a ∈ colSorted vals := mem_colSorted.mpr ha
  have hb' : b ∈ colSorted vals := mem_colSorted.mpr hb
  have hs := colSorted_sorted vals
  have h1 : (colSorted vals).getD 0 0 ≤ a := sorted_getD_zero_le hs ha'
  have h2' : a ≤ (colSorted vals).getD ((colSorted vals).length - 1) 0 :=
    le_sorted_getD_last hs ha'
  have h3 : (colSorted vals).getD 0 0 ≤ b := sorted_getD_zero_le hs hb'
  have h4 : b ≤ (colSorted vals).getD ((colSorted vals).length - 1) 0 :=
    le_sorted_getD_last hs hb'
  rcases lt_or_eq_of_le (le_trans h1 h2') with h | h
  · exact h
  · exfalso
    apply hab
    rw [← h] at h2' h4
    have ha2 : a = (colSorted vals).getD 0 0 := le_antisymm h2' h1
    have hb2 : b = (colSorted vals).getD 0 0 := le_antisymm h4 h3
    rw [ha2, hb2]

/-- With two distinct scores at least two distinct edges survive
deduplication. -/
theorem edges_two_le {vals : List (Option ℚ)} {e5 : List ℚ}
    (hd : describe5 vals = some e5) (h2 : hasTwoDistinctScores vals = true) :
    2 ≤ (edgesOf vals).length := by
  have hmn_mem : (colSorted vals).getD 0 0 ∈ edgesOf vals := by
    rw [mem_edgesOf hd, describe5_list hd]
    exact List.mem_cons_self _ _
  have hmx_mem : (colSorted vals).getD ((colSorted vals).length - 1) 0 ∈
      edgesOf vals := by
    rw [mem_edgesOf hd, describe5_list hd]
    simp
  have hne := ne_of_lt (min_lt_max_of_two h2)
  cases hE : edgesOf vals with
  | nil =>
    rw [hE] at hmn_mem
    cases hmn_mem
  | cons b rest =>
    cases rest with
    | nil =>
      rw [hE] at hmn_mem hmx_mem
      have hm1 := List.mem_singleton.mp hmn_mem
      have hm2 := List.mem_singleton.mp hmx_mem
      exact absurd (hm1.trans hm2.symm) hne
    | cons c rest' => simp

/-! ### The trimmed label list and the success of `catigorize_col` -/

theorem labels4_length : labels4.length = 4 := rfl

theorem edges_length_le_five {vals : List (Option ℚ)} {e5 : List ℚ}
    (hd : describe5 vals = some e5) : (edgesOf vals).length ≤ 5 := by
  rw [edgesOf_eq hd]
  have hle := sortedDedup_length_le e5
  have h5 : e5.length = 5 := by
    rw [describe5_list hd]
    rfl
  omega

theorem labsOf_length {vals : List (Option ℚ)} {e5 : List ℚ}
    (hd : describe5 vals = some e5) :
    (labsOf vals).length = (edgesOf vals).length - 1 := by
  unfold labsOf
  rw [List.length_take, labels4_length]
  have := edges_length_le_five hd
  omega

theorem labsOf_nodup (vals : List (Option ℚ)) : (labsOf vals).Nodup :=
  List.Nodup.sublist (List.take_sublist _ _) (by decide : labels4.Nodup)

/-- On a numeric column whose boundaries are defined, `catigorize_col`
succeeds and assigns `cutAssign` value-wise. -/
theorem catigorizeCore_eq {vals : List (Option ℚ)} {e5 : List ℚ}
    (hd : describe5 vals = some e5) :
    catigorizeCore vals labels4 =
      some (vals.map (fun ov => ov.bind (cutAssign (edgesOf vals) (labsOf vals)))) := by
  have hE : sortedDedup e5 = edgesOf vals := (edgesOf_eq hd).symm
  simp only [catigorizeCore, hd, hE]
  have hcond : (labels4.take ((edgesOf vals).length - 1)).length =
      (edgesOf vals).length - 1 ∧ (labels4.take ((edgesOf vals).length - 1)).Nodup :=
    ⟨labsOf_length hd, labsOf_nodup vals⟩
  rw [if_pos hcond]
  rfl

theorem catigorize_col_numeric {vals : List (Option ℚ)} {e5 : List ℚ}
    (hd : describe5 vals = some e5) :
    catigorize_col (Column.numeric vals) labels4 =
      some (Column.categorical
        (vals.map (fun ov => ov.bind (cutAssign (edgesOf vals) (labsOf vals))))) := by
  simp [catigorize_col, catigorizeCore_eq hd]

/-- A prefix label keeps its position in `labels4`. -/
theorem labsOf_get?_labels4 {vals : List (Option ℚ)} {j : Nat} {l : String}
    (h : (labsOf vals).get? j = some l) : labels4.get? j = some l := by
  unfold labsOf at h
  have hj : j < (edgesOf vals).length - 1 := by
    have hlt := List.get?_eq_some.mp h
    obtain ⟨hlen, _⟩ := hlt
    have := List.length_take_le ((edgesOf vals).length - 1) labels4
    have h2 := List.length_take ((edgesOf vals).length - 1) labels4
    omega
  rwa [List.get?_take hj] at h

theorem labels4_indexOf {j : Nat} {l : String} (h : labels4.get? j = some l) :
    labels4.indexOf l = j := by
  obtain ⟨hj, hget⟩ := List.get?_eq_some.mp h
  have hj4 : j < 4 := by
    have := labels4_length
    omega
  interval_cases j <;>
    (simp only [labels4, List.get?] at h
     obtain rfl := Option.some.inj h
     decide)

theorem describe5_isSome_of_two {vals : List (Option ℚ)}
    (h2 : hasTwoDistinctScores vals = true) :
    ∃ e5, describe5 vals = some e5 := by
  obtain ⟨a, ha, _⟩ := two_distinct_exists h2
  have hne : vals.filterMap id ≠ [] := by
    intro hn
    rw [hn] at ha
    cases ha
  exact ⟨_, describe5_eq hne⟩

theorem cutAssign_some_elim {edges : List ℚ} {labs : List String} {x : ℚ}
    {l : String} (h : cutAssign edges labs x = some l) :
    ∃ i, cutIndex edges x = some i ∧ labs.get? (i - 1) = some l := by
  unfold cutAssign at h
  cases hC : cutIndex edges x with
  | none =>
    rw [hC] at h
    cases h
  | some i =>
    rw [hC] at h
    exact ⟨i, rfl, h⟩

/-- Totality: every non-missing column value receives a bin index and a
label, provided the column holds two distinct scores. -/
theorem cutAssign_total {vals : List (Option ℚ)} {e5 : List ℚ}
    (hd : describe5 vals = some e5) (h2 : hasTwoDistinctScores vals = true)
    {v : ℚ} (hv : v ∈ vals.filterMap id) :
    ∃ i l, cutIndex (edgesOf vals) v = some i ∧ 1 ≤ i ∧
      i ≤ (edgesOf vals).length - 1 ∧
      cutAssign (edgesOf vals) (labsOf vals) v = some l ∧
      (labsOf vals).get? (i - 1) = some l := by
  have hh := edges_head_eq_min hd
  have hv' : v ∈ colSorted vals := mem_colSorted.mpr hv
  have hs := colSorted_sorted vals
  have hlow : (colSorted vals).getD 0 0 ≤ v := sorted_getD_zero_le hs hv'
  have hmx_mem : (colSorted vals).getD ((colSorted vals).length - 1) 0 ∈
      edgesOf vals := by
    rw [mem_edgesOf hd, describe5_list hd]
    simp
  have hhigh : ∃ e ∈ edgesOf vals, v ≤ e :=
    ⟨_, hmx_mem, le_sorted_getD_last hs hv'⟩
  obtain ⟨i, hi, hi1, hi2⟩ :=
    cutIndex_total (edges_sorted_le vals) (edges_two_le hd h2) hh hlow hhigh
  have hlab : i - 1 < (labsOf vals).length := by
    rw [labsOf_length hd]
    omega
  refine ⟨i, (labsOf vals).get ⟨i - 1, hlab⟩, hi, hi1, hi2, ?_, List.get?_eq_get hlab⟩
  simp [cutAssign, hi, List.get?_eq_get hlab]

/-- The least edge (the column minimum) lands in the lowest bin. -/
theorem cutAssign_min {vals : List (Option ℚ)} {e5 : List ℚ}
    (hd : describe5 vals = some e5) (h2 : hasTwoDistinctScores vals = true) :
    cutAssign (edgesOf vals) (labsOf vals) ((colSorted vals).getD 0 0) =
      (labsOf vals).get? 0 := by
  have hidx := cutIndex_head (edges_head_eq_min hd) (edges_two_le hd h2)
  unfold cutAssign
  rw [hidx]
  rfl

/-- Right-closed binning: a value in the interval `(edges[j], edges[j+1]]`
gets the `j`-th label. -/
theorem cutAssign_between {vals : List (Option ℚ)} {e5 : List ℚ}
    (hd : describe5 vals = some e5) {j : Nat} {v : ℚ}
    (hj : j + 1 < (edgesOf vals).length)
    (h1 : (edgesOf vals).getD j 0 < v) (h2 : v ≤ (edgesOf vals).getD (j + 1) 0) :
    cutAssign (edgesOf vals) (labsOf vals) v = (labsOf vals).get? j := by
  have hsle := edges_sorted_le vals
  have hslt := edges_sorted_lt vals
  have hcount := countP_lt_of_between hslt hj h1 h2
  have hhne : ¬ (edgesOf vals).head? = some v := by
    intro hh
    have hjlt : j < (edgesOf vals).length := by omega
    have hEj_mem : (edgesOf vals).getD j 0 ∈ edgesOf vals := by
      rw [getD_eq_get hjlt]
      exact List.get_mem _ _ _
    exact absurd h1 (not_lt.mpr (sorted_head?_le hsle hh hEj_mem))
  have h0 : (edgesOf vals).countP (fun b => decide (b < v)) ≠ 0 := by
    rw [hcount]
    omega
  have hl : (edgesOf vals).countP (fun b => decide (b < v)) ≠
      (edgesOf vals).length := by
    rw [hcount]
    omega
  have hidx := cutIndex_not_head hhne h0 hl
  rw [hcount] at hidx
  simp [cutAssign, hidx]

/-- With a single deduplicated edge no interval can be formed and every
value is left unbinned. -/
theorem cutIndex_singleton (c v : ℚ) : cutIndex [c] v = none := by
  simp only [cutIndex]
  by_cases h : ([c] : List ℚ).head? = some v
  · rw [if_pos h]
    simp
  · rw [if_neg h]
    rw [if_pos]
    simp only [List.countP_cons, List.countP_nil, List.length_cons,
      List.length_nil]
    by_cases hc : c < v
    · simp [hc]
    · simp [hc]

/-- The pipeline is the composition of its four steps. -/
theorem pipeline_eq (df : List DynRow) :
    pipeline df = (categorizeVoteStep df).map
      (fun d1 => explodeStep ((dropnaStep d1).map splitGenreRow)) := by
  cases hC : categorizeVoteStep df with
  | none => simp [pipeline, runSteps, scriptSteps, applyStep, hC]
  | some d1 => simp [pipeline, runSteps, scriptSteps, applyStep, hC]

/-! ### Claim theorems: the categorizer -/

/-- C2 counterexample.  On the column `[1, 2, 3, 4, 5]` the quartile
boundaries are exactly `[1, 2, 3, 4, 5]`, so `3` equals the interior
50%-boundary.  The two bins adjacent to that boundary are `(2, 3]`
(label `below_avg`) and `(3, 4]` (label `average`).  The claim's edge
policy ("values exactly on other boundaries fall into the upper of the
two adjacent bins") forces `3 ↦ "average"`, but `pd.cut` with its
default `right=True` assigns `3 ↦ "below_avg"`, the lower bin; likewise
the boundary scores `2` and `4` go to their lower bins.  The first
conjunct pins down the boundaries, the second the actual assignment,
and the third that the two labels differ. -/
theorem catigorize_boundary_lower_cex :
    describe5 [some 1, some 2, some 3, some 4, some 5] = some [1, 2, 3, 4, 5] ∧
    catigorize_col (Column.numeric [some 1, some 2, some 3, some 4, some 5])
        labels4 =
      some (Column.categorical [some "not_popular", some "not_popular",
        some "below_avg", some "average", some "popular"]) ∧
    "below_avg" ≠ "average" := by
  with_unfolding_all decide

/-- C2 (amended): in `catigorize_col` the bins over the deduplicated
quartile boundaries are closed on the RIGHT, not on the left: the global
minimum is still assigned to the lowest bin (`include_lowest`), but a
score exactly equal to an interior boundary is assigned to the LOWER of
the two adjacent bins.  Conjuncts: (1) the column is categorized
value-wise by `cutAssign`; (2) the column minimum receives the lowest
label; (3) a value in `(edges[j], edges[j+1]]` receives label `j`
(right-closed intervals); (4) a score equal to the interior boundary
`edges[k]` receives label `k-1`, the lower adjacent bin. -/
theorem catigorize_bins_right_closed (vals : List (Option ℚ)) (e5 : List ℚ)
    (hd : describe5 vals = some e5) (h2 : hasTwoDistinctScores vals = true) :
    catigorize_col (Column.numeric vals) labels4 =
      some (Column.categorical (vals.map (fun ov =>
        ov.bind (cutAssign (edgesOf vals) (labsOf vals))))) ∧
    cutAssign (edgesOf vals) (labsOf vals) ((colSorted vals).getD 0 0) =
      (labsOf vals).get? 0 ∧
    (∀ j v, j + 1 < (edgesOf vals).length →
      (edgesOf vals).getD j 0 < v → v ≤ (edgesOf vals).getD (j + 1) 0 →
      cutAssign (edgesOf vals) (labsOf vals) v = (labsOf vals).get? j) ∧
    (∀ k, 0 < k → k + 1 < (edgesOf vals).length →
      cutAssign (edgesOf vals) (labsOf vals) ((edgesOf vals).getD k 0) =
        (labsOf vals).get? (k - 1)) := by
  refine ⟨catigorize_col_numeric hd, cutAssign_min hd h2,
    fun j v hj h1 h2' => cutAssign_between hd hj h1 h2', ?_⟩
  intro k hk hk1
  have hkl : k < (edgesOf vals).length := by omega
  have hk1l : k - 1 < (edgesOf vals).length := by omega
  have hlt : (edgesOf vals).getD (k - 1) 0 < (edgesOf vals).getD k 0 := by
    rw [getD_eq_get hk1l, getD_eq_get hkl]
    exact (edges_sorted_lt vals).rel_get_of_lt (Fin.mk_lt_mk.mpr (by omega))
  have hkeq : k - 1 + 1 = k := Nat.succ_pred_eq_of_pos hk
  have hj2 : (k - 1) + 1 < (edgesOf vals).length := by omega
  have hle : (edgesOf vals).getD k 0 ≤ (edgesOf vals).getD ((k - 1) + 1) 0 := by
    rw [hkeq]
  exact cutAssign_between hd hj2 hlt hle

/-- Witness for the amended C2 at the column `[1, 2, 3, 4, 5]`: the
global minimum 1 receives the lowest label. -/
theorem catigorize_bins_right_closed_witness :
    cutAssign (edgesOf [some 1, some 2, some 3, some 4, some 5])
      (labsOf [some 1, some 2, some 3, some 4, some 5]) 1 =
      (labsOf [some 1, some 2, some 3, some 4, some 5]).get? 0 := by
  have h := catigorize_bins_right_closed [some 1, some 2, some 3, some 4, some 5]
      [1, 2, 3, 4, 5] (by with_unfolding_all decide) (by with_unfolding_all decide)
  have hmin : (colSorted [some 1, some 2, some 3, some 4, some 5]).getD 0 0 =
      (1 : ℚ) := by
    with_unfolding_all decide
  rw [← hmin]
  exact h.2.1

/-- C3 counterexample: totality fails without at least two distinct
scores.  On the column `[2, 2]` all five quartile boundaries equal 2,
a single deduplicated edge remains, and `pd.cut` assigns NO label to
the (non-missing) score 2: both output entries are missing, so the
score maps to none of the output labels rather than to exactly one. -/
theorem catigorize_total_cex :
    catigorize_col (Column.numeric [some 2, some 2]) labels4 =
      some (Column.categorical [none, none]) := by
  with_unfolding_all decide

/-- C3 (amended): on a numeric column with at least two distinct
non-missing scores, categorization is total and monotone:
`catigorize_col` succeeds, assigns every non-missing score exactly one
label drawn from the (at most 4) labels, and the assignment is
monotone — for scores `v ≤ w` the label of `w` is the same as or higher
than the label of `v` in the order of `labels4`. -/
theorem catigorize_total_monotone (vals : List (Option ℚ))
    (h2 : hasTwoDistinctScores vals = true) :
    ∃ out, catigorize_col (Column.numeric vals) labels4 =
        some (Column.categorical out) ∧
      out = vals.map (fun ov => ov.bind (cutAssign (edgesOf vals) (labsOf vals))) ∧
      (∀ v ∈ vals.filterMap id, ∃ l,
        cutAssign (edgesOf vals) (labsOf vals) v = some l ∧ l ∈ labels4) ∧
      (∀ v ∈ vals.filterMap id, ∀ w ∈ vals.filterMap id, v ≤ w →
        ∀ lv lw, cutAssign (edgesOf vals) (labsOf vals) v = some lv →
          cutAssign (edgesOf vals) (labsOf vals) w = some lw →
          labels4.indexOf lv ≤ labels4.indexOf lw) := by
  obtain ⟨e5, hd⟩ := describe5_isSome_of_two h2
  refine ⟨_, catigorize_col_numeric hd, rfl, ?_, ?_⟩
  · intro v hv
    obtain ⟨i, l, _, _, _, hassign, hget⟩ := cutAssign_total hd h2 hv
    exact ⟨l, hassign, List.get?_mem (labsOf_get?_labels4 hget)⟩
  · intro v hv w hw hvw lv lw hlv hlw
    obtain ⟨iv, hiv, hgv⟩ := cutAssign_some_elim hlv
    obtain ⟨iw, hiw, hgw⟩ := cutAssign_some_elim hlw
    have hmono := cutIndex_mono (edges_sorted_le vals) hiv hiw hvw
    rw [labels4_indexOf (labsOf_get?_labels4 hgv),
      labels4_indexOf (labsOf_get?_labels4 hgw)]
    omega

/-- Witness for C3 at the column `[1, 2, 3, 4, 5]`: the label of 1 sits
no higher than the label of 5 in the label order. -/
theorem catigorize_total_monotone_witness :
    labels4.indexOf "not_popular" ≤ labels4.indexOf "popular" := by
  obtain ⟨out, h1, h2, h3, h4⟩ :=
    catigorize_total_monotone [some 1, some 2, some 3, some 4, some 5]
      (by with_unfolding_all decide)
  exact h4 1 (by with_unfolding_all decide) 5 (by with_unfolding_all decide)
    (by norm_num) "not_popular" "popular" (by with_unfolding_all decide)
    (by with_unfolding_all decide)

/-- C4: duplicate quartile boundaries do not make categorization fail:
the duplicates collapse (`sorted(set(edges))` and `duplicates='drop'`),
the number of bins becomes the number of distinct boundaries minus one —
strictly fewer than 4 — and the labels in use are an initial segment of
`labels4` (`labels[:len(edges)-1]`), so labels are dropped from the
highest end. -/
theorem catigorize_duplicate_edges_collapse (vals : List (Option ℚ))
    (e5 : List ℚ) (hd : describe5 vals = some e5) (hdup : ¬ e5.Nodup) :
    ∃ out, catigorize_col (Column.numeric vals) labels4 =
        some (Column.categorical out) ∧
      (edgesOf vals).length = e5.dedup.length ∧
      (edgesOf vals).length < 5 ∧
      (edgesOf vals).length - 1 < 4 ∧
      labsOf vals = labels4.take ((edgesOf vals).length - 1) ∧
      (∀ ov ∈ out, ∀ l, ov = some l →
        l ∈ labels4.take ((edgesOf vals).length - 1)) := by
  have h5 : e5.length = 5 := by
    rw [describe5_list hd]
    rfl
  have hlt : (edgesOf vals).length < 5 := by
    rw [edgesOf_eq hd]
    have := sortedDedup_length_lt hdup
    omega
  refine ⟨_, catigorize_col_numeric hd, ?_, hlt, by omega, rfl, ?_⟩
  · rw [edgesOf_eq hd]
    exact (sortedDedup_perm e5).length_eq
  · intro ov hov l hl
    obtain ⟨x, _, hx⟩ := List.mem_map.mp hov
    subst hx
    cases x with
    | none => cases hl
    | some v =>
      rw [Option.some_bind] at hl
      obtain ⟨i, _, hget⟩ := cutAssign_some_elim hl
      exact List.get?_mem hget

/-- Witness for C4 on the skewed column `[1, 1, 1, 1, 5]`: the five
boundaries are `[1, 1, 1, 1, 5]`, which collapse to two edges and a
single bin. -/
theorem catigorize_duplicate_edges_collapse_witness :
    (edgesOf [some 1, some 1, some 1, some 1, some 5]).length - 1 < 4 := by
  obtain ⟨out, h1, h2, h3, h4, h5, h6⟩ :=
    catigorize_duplicate_edges_collapse [some 1, some 1, some 1, some 1, some 5]
      [1, 1, 1, 1, 5] (by with_unfolding_all decide) (by decide)
  exact h4

/-! ### Claim theorems: re-categorization and the constant column -/

/-- C9: applying `catigorize_col` to a column it has already
categorized fails.  Any successful run returns a categorical column,
and on a categorical column `describe()` carries no `'min'` entry, so
the second application raises `KeyError` instead of re-binning. -/
theorem catigorize_col_rejects_recategorized (c : Column)
    (labels labels' : List String) (out : Column)
    (h : catigorize_col c labels = some out) :
    catigorize_col out labels' = none := by
  cases c with
  | categorical vs => exact Option.noConfusion h
  | numeric vs =>
    simp only [catigorize_col] at h
    cases hC : catigorizeCore vs labels with
    | none =>
      rw [hC] at h
      exact Option.noConfusion h
    | some outs =>
      rw [hC, Option.map_some'] at h
      obtain rfl := Option.some.inj h
      rfl

/-- Witness for C9: categorizing `[1, 2]` yields the categorical column
`[not_popular, popular]`; re-applying `catigorize_col` to it fails. -/
theorem catigorize_col_rejects_recategorized_witness :
    catigorize_col (Column.categorical [some "not_popular", some "popular"])
      labels4 = none :=
  catigorize_col_rejects_recategorized (Column.numeric [some 1, some 2])
    labels4 labels4 (Column.categorical [some "not_popular", some "popular"])
    (by with_unfolding_all decide)

theorem colSorted_ne_nil {vals : List (Option ℚ)}
    (hne : vals.filterMap id ≠ []) : colSorted vals ≠ [] := by
  intro hn
  apply hne
  have hlen := (sortQ_perm (vals.filterMap id)).length_eq
  rw [show sortQ (vals.filterMap id) = colSorted vals from rfl, hn] at hlen
  exact List.length_eq_zero.mp hlen.symm

/-- On a constant column every quartile boundary equals the constant. -/
theorem describe5_const {vals : List (Option ℚ)} {c : ℚ}
    (hne : vals.filterMap id ≠ []) (hc : ∀ v ∈ vals.filterMap id, v = c) :
    describe5 vals = some [c, c, c, c, c] := by
  have hsne := colSorted_ne_nil hne
  have h0 : 0 < (colSorted vals).length := List.length_pos.mpr hsne
  have hl : (colSorted vals).length - 1 < (colSorted vals).length :=
    Nat.sub_lt h0 Nat.one_pos
  have hmem0 : (colSorted vals).getD 0 0 ∈ colSorted vals := by
    rw [getD_eq_get h0]
    exact List.get_mem _ _ _
  have hmeml : (colSorted vals).getD ((colSorted vals).length - 1) 0 ∈
      colSorted vals := by
    rw [getD_eq_get hl]
    exact List.get_mem _ _ _
  have hmn : (colSorted vals).getD 0 0 = c := hc _ (mem_colSorted.mp hmem0)
  have hmx : (colSorted vals).getD ((colSorted vals).length - 1) 0 = c :=
    hc _ (mem_colSorted.mp hmeml)
  have hper : ∀ q : ℚ, 0 ≤ q → q ≤ 1 → percentile (colSorted vals) q = c := by
    intro q h0q h1q
    have hb := percentile_bounds (colSorted_sorted vals) hsne h0q h1q
    rw [hmn] at hb
    rw [hmx] at hb
    exact le_antisymm hb.2 hb.1
  rw [describe5_eq hne, hmn, hmx, hper _ (by norm_num) (by norm_num),
    hper _ (by norm_num) (by norm_num), hper _ (by norm_num) (by norm_num)]

theorem dedup_five_const (c : ℚ) : ([c, c, c, c, c] : List ℚ).dedup = [c] := by
  rw [List.dedup_cons_of_mem (by simp), List.dedup_cons_of_mem (by simp),
    List.dedup_cons_of_mem (by simp), List.dedup_cons_of_mem (by simp)]
  rfl

theorem edgesOf_const {vals : List (Option ℚ)} {c : ℚ}
    (hne : vals.filterMap id ≠ []) (hc : ∀ v ∈ vals.filterMap id, v = c) :
    edgesOf vals = [c] := by
  rw [edgesOf_eq (describe5_const hne hc)]
  unfold sortedDedup
  rw [dedup_five_const]
  rfl

theorem zipWith_writeVote_map (df : List DynRow) (f : DynRow → Option String) :
    List.zipWith writeVote df (df.map f) = df.map (fun r => writeVote r (f r)) := by
  induction df with
  | nil => rfl
  | cons r rs ih => simp [ih]

/-- C10 counterexample: on the constant column `[5, 5, 5]` the five
boundaries coincide, the deduplicated edge list is the singleton `[5]`,
and `pd.cut` does NOT raise: it forms no interval and leaves every one
of the three values unbinned (missing).  `catigorize_col` therefore
returns successfully instead of failing with an error. -/
theorem catigorize_constant_no_error_cex :
    catigorize_col (Column.numeric [some 5, some 5, some 5]) labels4 =
      some (Column.categorical [none, none, none]) := by
  with_unfolding_all decide

/-- C10 (amended): on a column whose non-missing scores are all equal,
`catigorize_col` does not raise — the deduplicated edge list is a
single edge, no interval can be formed, and every entry of the column
comes back missing; the subsequent `df.dropna` then removes every
record, leaving an empty frame for the rest of the pipeline. -/
theorem catigorize_constant_column (vals : List (Option ℚ)) (c : ℚ)
    (hne : vals.filterMap id ≠ []) (hc : ∀ v ∈ vals.filterMap id, v = c) :
    catigorize_col (Column.numeric vals) labels4 =
      some (Column.categorical (vals.map (fun _ => none))) ∧
    (∀ df : List DynRow, df.all isNumVote = true → voteColVals df = vals →
      pipeline df = some []) := by
  have hd := describe5_const hne hc
  have hE := edgesOf_const hne hc
  have hmap : vals.map (fun ov =>
      ov.bind (cutAssign (edgesOf vals) (labsOf vals))) =
      vals.map (fun _ => (none : Option String)) := by
    apply List.map_congr_left
    intro ov _
    cases ov with
    | none => rfl
    | some v =>
      rw [Option.some_bind]
      unfold cutAssign
      rw [hE, cutIndex_singleton]
      rfl
  constructor
  · rw [catigorize_col_numeric hd, hmap]
  · intro df hnum hvv
    have hcore : catigorizeCore (voteColVals df) labels4 =
        some ((voteColVals df).map (fun _ => none)) := by
      rw [hvv, catigorizeCore_eq hd, hmap]
    have hstep : categorizeVoteStep df =
        some (df.map (fun r => writeVote r none)) := by
      unfold categorizeVoteStep
      rw [if_pos hnum, hcore]
      have hmm : (voteColVals df).map (fun _ => (none : Option String)) =
          df.map (fun _ => (none : Option String)) := by
        unfold voteColVals
        rw [List.map_map]
        rfl
      rw [hmm, Option.map_some']
      rw [zipWith_writeVote_map df (fun _ => none)]
    have hdrop : dropnaStep (df.map (fun r => writeVote r none)) = [] := by
      unfold dropnaStep
      apply List.filter_eq_nil_iff.mpr
      intro r hr
      obtain ⟨r0, _, rfl⟩ := List.mem_map.mp hr
      simp [rowComplete, writeVote]
    rw [pipeline_eq df, hstep, Option.map_some', hdrop]
    rfl

/-- Witness for the amended C10 on the constant column `[7, 7]`. -/
theorem catigorize_constant_column_witness :
    catigorize_col (Column.numeric [some 7, some 7]) labels4 =
      some (Column.categorical [none, none]) := by
  have h := catigorize_constant_column [some 7, some 7] 7
    (by with_unfolding_all decide) (by with_unfolding_all decide)
  exact h.1

/-! ### The split/explode transform -/

theorem splitSepCS_ne_nil (cs : List Char) : splitSepCS cs ≠ [] := by
  induction cs using splitSepCS.induct with
  | case1 => simp [splitSepCS]
  | case2 rest ih => simp [splitSepCS]
  | case3 c rest hne heq ih => exact absurd heq ih
  | case4 c rest hne g gs heq ih =>
    simp only [splitSepCS]
    rw [heq]
    simp

theorem splitTags_ne_nil (s : String) : splitTags s ≠ [] := by
  unfold splitTags
  intro h
  exact splitSepCS_ne_nil s.toList (List.map_eq_nil.mp h)

theorem explodeStep_cons (r : DynRow) (rs : List DynRow) :
    explodeStep (r :: rs) = explodeRow r ++ explodeStep rs := rfl

theorem mem_explodeStep {r' : DynRow} {l : List DynRow} :
    r' ∈ explodeStep l ↔ ∃ r ∈ l, r' ∈ explodeRow r := by
  induction l with
  | nil => simp [explodeStep]
  | cons r rs ih =>
    rw [explodeStep_cons, List.mem_append, ih]
    simp

theorem explodeRow_length_pos (r : DynRow) : 0 < (explodeRow r).length := by
  unfold explodeRow
  cases hg : r.genre with
  | gstr s => simp
  | gmissing => simp
  | glist ts =>
    cases ts with
    | nil => simp
    | cons t ts' => simp

theorem explodeStep_length_ge (l : List DynRow) :
    l.length ≤ (explodeStep l).length := by
  induction l with
  | nil => simp [explodeStep]
  | cons r rs ih =>
    rw [explodeStep_cons, List.length_append, List.length_cons]
    have := explodeRow_length_pos r
    omega

/-- One split-then-exploded record expands into exactly its tag list,
in order, all other columns copied. -/
theorem explodeRow_split (r : DynRow) {s : String} (hs : r.genre = .gstr s) :
    explodeRow (splitGenreRow r) = (tagsOfRow r).map (setGenre r) := by
  have hsplit : splitGenreRow r = { r with genre := .glist (splitTags s) } := by
    simp [splitGenreRow, hs]
  rw [hsplit]
  have hne := splitTags_ne_nil s
  have htags : tagsOfRow r = splitTags s := by
    simp [tagsOfRow, hs]
  rw [htags]
  cases hts : splitTags s with
  | nil => exact absurd hts hne
  | cons t ts' =>
    simp only [explodeRow, setGenre]
    rfl

/-- The explode transform agrees with the specification's per-record
expansion on every frame whose genre cells are strings. -/
theorem explode_eq_explodeSpec (l : List DynRow)
    (h : ∀ r ∈ l, isStrGenre r = true) :
    explodeStep (l.map splitGenreRow) = explodeSpec l := by
  induction l with
  | nil => rfl
  | cons r rs ih =>
    have hr := h r (List.mem_cons_self r rs)
    obtain ⟨s, hs⟩ : ∃ s, r.genre = .gstr s := by
      cases hg : r.genre with
      | gstr s => exact ⟨s, rfl⟩
      | glist ts =>
        rw [isStrGenre, hg] at hr
        cases hr
      | gmissing =>
        rw [isStrGenre, hg] at hr
        cases hr
    rw [List.map_cons, explodeStep_cons,
      ih (fun x hx => h x (List.mem_cons_of_mem _ hx)),
      explodeRow_split r hs]
    rfl

theorem explodeSpec_length (l : List DynRow) :
    (explodeSpec l).length = (l.map (fun r => (tagsOfRow r).length)).sum := by
  induction l with
  | nil => rfl
  | cons r rs ih =>
    simp only [explodeSpec, List.length_append, List.length_map, List.map_cons,
      List.sum_cons, ih]

/-! ### Claim theorems: explode and pipeline order -/

/-- C1: exploding the genre column (split on `", "`, then
`df.explode`) produces, for each record in order, one record per tag in
tag order, identical to the source record in every non-genre column;
hence the row count is the sum over records of their genre-tag count.
Conjuncts: (1) the coded transform equals the per-record expansion
`explodeSpec`; (2) the row-count identity; (3) a record carrying one
tag agrees with its source in all five non-genre columns. -/
theorem explode_genre_semantics (l : List DynRow)
    (h : ∀ r ∈ l, isStrGenre r = true) :
    explodeStep (l.map splitGenreRow) = explodeSpec l ∧
    (explodeStep (l.map splitGenreRow)).length =
      (l.map (fun r => (tagsOfRow r).length)).sum ∧
    (∀ r t, (setGenre r t).release_Date = r.release_Date ∧
      (setGenre r t).title = r.title ∧
      (setGenre r t).popularity = r.popularity ∧
      (setGenre r t).vote_Count = r.vote_Count ∧
      (setGenre r t).vote_Average = r.vote_Average ∧
      (setGenre r t).genre = .gstr t) := by
  refine ⟨explode_eq_explodeSpec l h, ?_, fun r t => ⟨rfl, rfl, rfl, rfl, rfl, rfl⟩⟩
  rw [explode_eq_explodeSpec l h, explodeSpec_length]

/-- Witness for C1 on the spec's own example: the record with
`Genre = "Drama, War"` explodes into exactly the Drama row followed by
the War row. -/
theorem explode_genre_semantics_witness :
    explodeStep ([(⟨some 2020, some "A", some 1, some 2, VoteVal.vnum 5,
        GenreVal.gstr "Drama, War"⟩ : DynRow)].map splitGenreRow) =
      explodeSpec [⟨some 2020, some "A", some 1, some 2, VoteVal.vnum 5,
        GenreVal.gstr "Drama, War"⟩] :=
  (explode_genre_semantics _ (by decide)).1

/-- C5 counterexample: in the script's order of operations the genre
explosion does not precede the missing-value removal — `df.dropna`
(line 137) runs before `df.explode` (line 143), so the claim that
removal happens after both categorization and explosion is false. -/
theorem dropna_after_explode_cex :
    ¬ (scriptSteps.indexOf ScriptStep.explodeGenre <
        scriptSteps.indexOf ScriptStep.dropna) := by
  decide

/-- C5 (amended): in the pipeline's order of operations the removal of
records with missing values is applied after categorization but BEFORE
the genre split and explosion. -/
theorem dropna_between_categorize_and_explode :
    scriptSteps.indexOf ScriptStep.categorizeVote <
      scriptSteps.indexOf ScriptStep.dropna ∧
    scriptSteps.indexOf ScriptStep.dropna <
      scriptSteps.indexOf ScriptStep.splitGenre ∧
    scriptSteps.indexOf ScriptStep.splitGenre <
      scriptSteps.indexOf ScriptStep.explodeGenre := by
  decide

/-! ### Shape of the categorize step and the pipeline frame claims -/

theorem catigorizeCore_some_elim {vals : List (Option ℚ)}
    {labels : List String} {outs : List (Option String)}
    (h : catigorizeCore vals labels = some outs) :
    ∃ e5, describe5 vals = some e5 ∧
      outs = vals.map (fun ov => ov.bind (cutAssign (sortedDedup e5)
        (labels.take ((sortedDedup e5).length - 1)))) := by
  cases hd : describe5 vals with
  | none =>
    simp only [catigorizeCore, hd] at h
    exact Option.noConfusion h
  | some e5 =>
    simp only [catigorizeCore, hd] at h
    refine ⟨e5, rfl, ?_⟩
    by_cases hg : (labels.take ((sortedDedup e5).length - 1)).length =
        (sortedDedup e5).length - 1 ∧ (labels.take ((sortedDedup e5).length - 1)).Nodup
    · rw [if_pos hg] at h
      exact (Option.some.inj h).symm
    · rw [if_neg hg] at h
      cases h

/-- A successful categorize step rewrites each row's `Vote_Average` as
a function of its numeric content and copies every other column. -/
theorem categorizeVoteStep_shape {df d1 : List DynRow}
    (h : categorizeVoteStep df = some d1) :
    ∃ f : Option ℚ → Option String,
      d1 = df.map (fun r => writeVote r (f (extractVote r))) := by
  unfold categorizeVoteStep at h
  by_cases hall : df.all isNumVote = true
  · rw [if_pos hall] at h
    cases hC : catigorizeCore (voteColVals df) labels4 with
    | none =>
      rw [hC] at h
      cases h
    | some outs =>
      rw [hC, Option.map_some'] at h
      obtain rfl := Option.some.inj h
      obtain ⟨e5, hd, houts⟩ := catigorizeCore_some_elim hC
      refine ⟨fun ov => ov.bind (cutAssign (sortedDedup e5)
        (labels4.take ((sortedDedup e5).length - 1))), ?_⟩
      subst houts
      unfold voteColVals
      rw [List.map_map, zipWith_writeVote_map]
      rfl
  · rw [if_neg hall] at h
    cases h

theorem writeVote_release (r : DynRow) (x : Option String) :
    (writeVote r x).release_Date = r.release_Date := rfl

theorem writeVote_genre (r : DynRow) (x : Option String) :
    (writeVote r x).genre = r.genre := rfl

/-- C7: the only rows the pipeline ever removes are those containing a
missing value at the `dropna` point.  On a successful run: the
categorize step keeps every row (equal length); `dropna` is exactly the
filter by `rowComplete`, so it keeps each complete row with its full
multiplicity (duplicates are observed but never removed) and a removed
row is precisely an incomplete one; and the explode step never shrinks
the frame, so no other row-filtering occurs up to the reporter. -/
theorem pipeline_only_dropna_removes (df d1 out : List DynRow)
    (hC : categorizeVoteStep df = some d1) (h : pipeline df = some out) :
    d1.length = df.length ∧
    dropnaStep d1 = d1.filter rowComplete ∧
    (∀ r, rowComplete r = true → (dropnaStep d1).count r = d1.count r) ∧
    (∀ r ∈ d1, rowComplete r = false → r ∉ dropnaStep d1) ∧
    (dropnaStep d1).length ≤ out.length ∧
    out = explodeStep ((dropnaStep d1).map splitGenreRow) := by
  rw [pipeline_eq, hC, Option.map_some'] at h
  obtain rfl := (Option.some.inj h).symm
  obtain ⟨f, rfl⟩ := categorizeVoteStep_shape hC
  refine ⟨List.length_map _ _, rfl, ?_, ?_, ?_, rfl⟩
  · intro r hr
    exact List.count_filter hr
  · intro r _ hfalse hmem
    have := (List.mem_filter.mp hmem).2
    rw [hfalse] at this
    cases this
  · calc (dropnaStep (df.map (fun r => writeVote r (f (extractVote r))))).length
        = ((dropnaStep (df.map (fun r =>
            writeVote r (f (extractVote r))))).map splitGenreRow).length :=
          (List.length_map _ _).symm
    _ ≤ _ := explodeStep_length_ge _

/-- Witness for C7 on a frame with a duplicated complete row and one
row with a missing title: the duplicate row survives `dropna` with
multiplicity 2. -/
theorem pipeline_only_dropna_removes_witness :
    (dropnaStep [⟨some 2020, some "A", some 1, some 2, VoteVal.vcat "not_popular",
        GenreVal.gstr "Drama"⟩,
      ⟨some 2020, some "A", some 1, some 2, VoteVal.vcat "not_popular",
        GenreVal.gstr "Drama"⟩,
      ⟨some 2020, none, some 1, some 2, VoteVal.vcat "below_avg",
        GenreVal.gstr "War"⟩]).count
      ⟨some 2020, some "A", some 1, some 2, VoteVal.vcat "not_popular",
        GenreVal.gstr "Drama"⟩ =
    ([⟨some 2020, some "A", some 1, some 2, VoteVal.vcat "not_popular",
        GenreVal.gstr "Drama"⟩,
      ⟨some 2020, some "A", some 1, some 2, VoteVal.vcat "not_popular",
        GenreVal.gstr "Drama"⟩,
      ⟨some 2020, none, some 1, some 2, VoteVal.vcat "below_avg",
        GenreVal.gstr "War"⟩] : List DynRow).count
      ⟨some 2020, some "A", some 1, some 2, VoteVal.vcat "not_popular",
        GenreVal.gstr "Drama"⟩ := by
  have h := pipeline_only_dropna_removes
    [⟨some 2020, some "A", some 1, some 2, VoteVal.vnum 1, GenreVal.gstr "Drama"⟩,
     ⟨some 2020, some "A", some 1, some 2, VoteVal.vnum 1, GenreVal.gstr "Drama"⟩,
     ⟨some 2020, none, some 1, some 2, VoteVal.vnum 2, GenreVal.gstr "War"⟩]
    [⟨some 2020, some "A", some 1, some 2, VoteVal.vcat "not_popular",
        GenreVal.gstr "Drama"⟩,
     ⟨some 2020, some "A", some 1, some 2, VoteVal.vcat "not_popular",
        GenreVal.gstr "Drama"⟩,
     ⟨some 2020, none, some 1, some 2, VoteVal.vcat "below_avg",
        GenreVal.gstr "War"⟩]
    [⟨some 2020, some "A", some 1, some 2, VoteVal.vcat "not_popular",
        GenreVal.gstr "Drama"⟩,
     ⟨some 2020, some "A", some 1, some 2, VoteVal.vcat "not_popular",
        GenreVal.gstr "Drama"⟩]
    (by with_unfolding_all decide) (by with_unfolding_all decide)
  exact h.2.2.1 _ (by decide)

theorem rowComplete_parts {r : DynRow} (h : rowComplete r = true) :
    r.release_Date.isSome = true ∧ r.title.isSome = true ∧
    r.popularity.isSome = true ∧ r.vote_Count.isSome = true ∧
    r.vote_Average ≠ VoteVal.vmissing ∧ r.genre ≠ GenreVal.gmissing := by
  simp only [rowComplete, Bool.and_eq_true, decide_eq_true_eq] at h
  exact ⟨h.1.1.1.1.1, h.1.1.1.1.2, h.1.1.1.2, h.1.1.2, h.1.2, h.2⟩

/-- C8: on every successful run over a loaded frame (each genre cell a
string or missing), the final frame handed to the reporter has no
missing value in any retained column: cleaning establishes it and the
split/explode steps preserve it. -/
theorem pipeline_no_missing (df out : List DynRow)
    (hg : ∀ r ∈ df, genreLoaded r = true)
    (h : pipeline df = some out) :
    ∀ r ∈ out, rowComplete r = true := by
  rw [pipeline_eq] at h
  cases hC : categorizeVoteStep df with
  | none =>
    rw [hC] at h
    cases h
  | some d1 =>
    rw [hC, Option.map_some'] at h
    obtain rfl := (Option.some.inj h).symm
    obtain ⟨f, rfl⟩ := categorizeVoteStep_shape hC
    intro r' hr'
    rw [mem_explodeStep] at hr'
    obtain ⟨rs, hrs, hr'mem⟩ := hr'
    obtain ⟨rd, hrd, rfl⟩ := List.mem_map.mp hrs
    have hmemf := List.mem_filter.mp hrd
    have hcomp : rowComplete rd = true := hmemf.2
    obtain ⟨r0, hr0, rfl⟩ := List.mem_map.mp hmemf.1
    obtain ⟨h1, h2, h3, h4, h5, h6⟩ := rowComplete_parts hcomp
    -- the genre cell survives `writeVote` untouched and must be a string
    have hload := hg r0 hr0
    obtain ⟨s, hs⟩ : ∃ s, (writeVote r0 (f (extractVote r0))).genre =
        GenreVal.gstr s := by
      rw [writeVote_genre] at h6 ⊢
      cases hgg : r0.genre with
      | gstr s => exact ⟨s, rfl⟩
      | glist ts =>
        rw [genreLoaded, hgg] at hload
        cases hload
      | gmissing => exact absurd hgg h6
    -- after split the cell is the non-empty tag list, after explode a tag
    have hsplit : splitGenreRow (writeVote r0 (f (extractVote r0))) =
        { writeVote r0 (f (extractVote r0)) with
          genre := .glist (splitTags s) } := by
      simp [splitGenreRow, hs]
    rw [hsplit] at hr'mem
    cases hts : splitTags s with
    | nil => exact absurd hts (splitTags_ne_nil s)
    | cons t ts' =>
      rw [hts] at hr'mem
      simp only [explodeRow] at hr'mem
      obtain ⟨t', _, rfl⟩ := List.mem_map.mp hr'mem
      simp only [rowComplete, Bool.and_eq_true, decide_eq_true_eq]
      refine ⟨⟨⟨⟨⟨h1, h2⟩, h3⟩, h4⟩, h5⟩, ?_⟩
      intro hcontra
      cases hcontra

/-- Witness for C8: a two-row frame runs through the whole pipeline and
the first record of the result is complete. -/
theorem pipeline_no_missing_witness :
    rowComplete ⟨some 2021, some "A", some 5, some 10,
      VoteVal.vcat "not_popular", GenreVal.gstr "Drama"⟩ = true := by
  have h := pipeline_no_missing
    [⟨some 2021, some "A", some 5, some 10, VoteVal.vnum 7,
        GenreVal.gstr "Drama, War"⟩,
     ⟨some 2020, some "B", some 1, some 20, VoteVal.vnum 8,
        GenreVal.gstr "Comedy"⟩]
    [⟨some 2021, some "A", some 5, some 10, VoteVal.vcat "not_popular",
        GenreVal.gstr "Drama"⟩,
     ⟨some 2021, some "A", some 5, some 10, VoteVal.vcat "not_popular",
        GenreVal.gstr "War"⟩,
     ⟨some 2020, some "B", some 1, some 20, VoteVal.vcat "popular",
        GenreVal.gstr "Comedy"⟩]
    (by decide) (by with_unfolding_all decide)
  exact h _ (by decide)

/-! ### The popularity extremum queries -/

theorem listMaxQ_eq_none {l : List ℚ} : listMaxQ l = none ↔ l = [] := by
  cases l with
  | nil => simp [listMaxQ]
  | cons x xs =>
    simp only [listMaxQ]
    cases listMaxQ xs with
    | none => simp
    | some m => simp

theorem listMaxQ_spec {l : List ℚ} {m : ℚ} (h : listMaxQ l = some m) :
    m ∈ l ∧ ∀ x ∈ l, x ≤ m := by
  induction l generalizing m with
  | nil => cases h
  | cons x xs ih =>
    simp only [listMaxQ] at h
    cases hxs : listMaxQ xs with
    | none =>
      rw [hxs] at h
      obtain rfl := Option.some.inj h
      obtain rfl : xs = [] := listMaxQ_eq_none.mp hxs
      exact ⟨List.mem_singleton_self _, by simp⟩
    | some m' =>
      rw [hxs] at h
      obtain rfl := Option.some.inj h
      obtain ⟨hmem, hbound⟩ := ih hxs
      constructor
      · rcases max_choice x m' with hc | hc
        · rw [hc]
          exact List.mem_cons_self _ _
        · rw [hc]
          exact List.mem_cons_of_mem _ hmem
      · intro y hy
        rcases List.mem_cons.mp hy with rfl | hy'
        · exact le_max_left _ _
        · exact le_trans (hbound y hy') (le_max_right _ _)

theorem listMinQ_eq_none {l : List ℚ} : listMinQ l = none ↔ l = [] := by
  cases l with
  | nil => simp [listMinQ]
  | cons x xs =>
    simp only [listMinQ]
    cases listMinQ xs with
    | none => simp
    | some m => simp

theorem listMinQ_spec {l : List ℚ} {m : ℚ} (h : listMinQ l = some m) :
    m ∈ l ∧ ∀ x ∈ l, m ≤ x := by
  induction l generalizing m with
  | nil => cases h
  | cons x xs ih =>
    simp only [listMinQ] at h
    cases hxs : listMinQ xs with
    | none =>
      rw [hxs] at h
      obtain rfl := Option.some.inj h
      obtain rfl : xs = [] := listMinQ_eq_none.mp hxs
      exact ⟨List.mem_singleton_self _, by simp⟩
    | some m' =>
      rw [hxs] at h
      obtain rfl := Option.some.inj h
      obtain ⟨hmem, hbound⟩ := ih hxs
      constructor
      · rcases min_choice x m' with hc | hc
        · rw [hc]
          exact List.mem_cons_self _ _
        · rw [hc]
          exact List.mem_cons_of_mem _ hmem
      · intro y hy
        rcases List.mem_cons.mp hy with rfl | hy'
        · exact min_le_left _ _
        · exact le_trans (min_le_right _ _) (hbound y hy')

/-- C6: the highest- and lowest-popularity queries return exactly the
records whose popularity equals the dataset-wide maximum (resp.
minimum); with a unique extremum the result is that single record, and
ties are all included (the membership characterization is independent
of multiplicity). -/
theorem popularity_extrema_queries (df : List DynRow) :
    (∀ r, r ∈ highestPopQuery df ↔ r ∈ df ∧ ∃ m, popularityMax df = some m ∧
      r.popularity = some m ∧
      ∀ r' ∈ df, ∀ p', r'.popularity = some p' → p' ≤ m) ∧
    (∀ r, r ∈ lowestPopQuery df ↔ r ∈ df ∧ ∃ m, popularityMin df = some m ∧
      r.popularity = some m ∧
      ∀ r' ∈ df, ∀ p', r'.popularity = some p' → m ≤ p') ∧
    (df.countP (fun r => popEq r.popularity (popularityMax df)) = 1 →
      ∃ r, highestPopQuery df = [r]) ∧
    (df.countP (fun r => popEq r.popularity (popularityMin df)) = 1 →
      ∃ r, lowestPopQuery df = [r]) := by
  refine ⟨?_, ?_, ?_, ?_⟩
  · intro r
    constructor
    · intro hr
      obtain ⟨hrdf, hpe⟩ := List.mem_filter.mp hr
      cases hp : r.popularity with
      | none =>
        rw [hp] at hpe
        cases hM : popularityMax df <;> rw [hM] at hpe <;> cases hpe
      | some p =>
        rw [hp] at hpe
        cases hM : popularityMax df with
        | none =>
          rw [hM] at hpe
          cases hpe
        | some m =>
          rw [hM] at hpe
          simp only [popEq, decide_eq_true_eq] at hpe
          subst hpe
          refine ⟨hrdf, p, rfl, rfl, ?_⟩
          intro r' hr' p' hp'
          have hmem : p' ∈ df.filterMap (fun x => x.popularity) :=
            List.mem_filterMap.mpr ⟨r', hr', hp'⟩
          exact (listMaxQ_spec hM).2 p' hmem
    · rintro ⟨hrdf, m, hM, hp, _⟩
      refine List.mem_filter.mpr ⟨hrdf, ?_⟩
      show popEq r.popularity (popularityMax df) = true
      rw [hp, hM]
      simp [popEq]
  · intro r
    constructor
    · intro hr
      obtain ⟨hrdf, hpe⟩ := List.mem_filter.mp hr
      cases hp : r.popularity with
      | none =>
        rw [hp] at hpe
        cases hM : popularityMin df <;> rw [hM] at hpe <;> cases hpe
      | some p =>
        rw [hp] at hpe
        cases hM : popularityMin df with
        | none =>
          rw [hM] at hpe
          cases hpe
        | some m =>
          rw [hM] at hpe
          simp only [popEq, decide_eq_true_eq] at hpe
          subst hpe
          refine ⟨hrdf, p, rfl, rfl, ?_⟩
          intro r' hr' p' hp'
          have hmem : p' ∈ df.filterMap (fun x => x.popularity) :=
            List.mem_filterMap.mpr ⟨r', hr', hp'⟩
          exact (listMinQ_spec hM).2 p' hmem
    · rintro ⟨hrdf, m, hM, hp, _⟩
      refine List.mem_filter.mpr ⟨hrdf, ?_⟩
      show popEq r.popularity (popularityMin df) = true
      rw [hp, hM]
      simp [popEq]
  · intro hcount
    have hlen : (highestPopQuery df).length = 1 := by
      rw [highestPopQuery, ← List.countP_eq_length_filter]
      exact hcount
    exact List.length_eq_one.mp hlen
  · intro hcount
    have hlen : (lowestPopQuery df).length = 1 := by
      rw [lowestPopQuery, ← List.countP_eq_length_filter]
      exact hcount
    exact List.length_eq_one.mp hlen

/-- Witness for C6 on a three-record frame with a popularity tie at the
top (5, 5, 1): both tying records are returned by the highest query and
the unique minimum gives a single-record result. -/
theorem popularity_extrema_queries_witness :
    (⟨some 2020, some "A", some 5, some 1, VoteVal.vcat "popular",
        GenreVal.gstr "Drama"⟩ : DynRow) ∈
      highestPopQuery
        [⟨some 2020, some "A", some 5, some 1, VoteVal.vcat "popular",
            GenreVal.gstr "Drama"⟩,
         ⟨some 2021, some "B", some 5, some 2, VoteVal.vcat "average",
            GenreVal.gstr "War"⟩,
         ⟨some 2022, some "C", some 1, some 3, VoteVal.vcat "not_popular",
            GenreVal.gstr "Comedy"⟩] ∧
    lowestPopQuery
        [⟨some 2020, some "A", some 5, some 1, VoteVal.vcat "popular",
            GenreVal.gstr "Drama"⟩,
         ⟨some 2021, some "B", some 5, some 2, VoteVal.vcat "average",
            GenreVal.gstr "War"⟩,
         ⟨some 2022, some "C", some 1, some 3, VoteVal.vcat "not_popular",
            GenreVal.gstr "Comedy"⟩] =
      [⟨some 2022, some "C", some 1, some 3, VoteVal.vcat "not_popular",
          GenreVal.gstr "Comedy"⟩] := by
  have h := popularity_extrema_queries
    [⟨some 2020, some "A", some 5, some 1, VoteVal.vcat "popular",
        GenreVal.gstr "Drama"⟩,
     ⟨some 2021, some "B", some 5, some 2, VoteVal.vcat "average",
        GenreVal.gstr "War"⟩,
     ⟨some 2022, some "C", some 1, some 3, VoteVal.vcat "not_popular",
        GenreVal.gstr "Comedy"⟩]
  constructor
  · exact (h.1 _).mpr ⟨by decide, 5, by with_unfolding_all decide,
      rfl, by with_unfolding_all decide⟩
  · with_unfolding_all decide
